import Mathlib

/-!
Shallow embedding of the robust-regression preprocessing repository
(`src/loss.py` and `src/preprocessor.py`).

Real-valued sample data (numpy float arrays in the source) is embedded as
lists of exact rationals; the algorithmic structure of each function is
translated statement by statement.  Python runtime behaviour that the claims
depend on is made explicit: `math.ceil` becomes `Int.ceil`, `int(...)`
becomes truncation toward zero, slicing with a possibly negative bound
becomes `pySlice`, and a division whose divisor is the integer `0` becomes
an explicit `ZeroDivisionError` value.

`np.argsort` is embedded as a stable sort of (value, index) pairs built from
Mathlib's structural `List.insertionSort`; NumPy's default kind
(`quicksort`) does not document its tie order, and this embedding fixes the
stable determinisation.  The DBSCAN labelling used by
`ClusteringPreprocessor` is an external capability (scikit-learn); its
output label vector is passed to the embedded function as a parameter.
-/

/-- Python `int(q)` for a rational `q`: truncation toward zero. -/
def pyInt (q : ℚ) : ℤ := if 0 ≤ q then ⌊q⌋ else ⌈q⌉

/-- Python `l[:k]` for an integer bound `k`: the first `k` elements when
`k ≥ 0`, everything but the last `-k` elements when `k < 0`. -/
def pySlice {α : Type} (l : List α) (k : ℤ) : List α :=
  if 0 ≤ k then l.take k.toNat else l.take (l.length - (-k).toNat)

/-- Dot product of two rational vectors (`numpy` 1-d `dot`). -/
def dot (v w : List ℚ) : ℚ := (List.zipWith (fun a b => a * b) v w).sum

namespace SquaredLoss

/-- Comparison of (squared-loss value, original index) pairs by value, the
order `np.argsort` sorts by. -/
def valLe (a b : ℚ × ℕ) : Prop := a.1 ≤ b.1

instance : DecidableRel valLe := fun a b => inferInstanceAs (Decidable (a.1 ≤ b.1))

instance : IsTotal (ℚ × ℕ) valLe := ⟨fun a b => le_total a.1 b.1⟩

instance : IsTrans (ℚ × ℕ) valLe := ⟨fun _ _ _ h1 h2 => le_trans h1 h2⟩

/-- The list of (value, original index) pairs of a list. -/
def pairsOf (l : List ℚ) : List (ℚ × ℕ) :=
  (List.range l.length).map (fun i => (l.getD i 0, i))

/-- Embedding of `np.argsort(l)`: the indices of `l` reordered so that the
corresponding values are ascending (ties resolved stably, by original
index). -/
def argsort (l : List ℚ) : List ℕ :=
  ((pairsOf l).insertionSort valLe).map Prod.snd

/-- Line 21 of `loss.py`: `kept_size = ceil(X.shape[0] * (1 - self.contamination_proportion))`. -/
def kept_size (cp : ℚ) (n : ℕ) : ℤ := ⌈(n : ℚ) * (1 - cp)⌉

/-- Line 22 of `loss.py`: `residuals = X.dot(w) - y` (row-wise dot products
minus targets). -/
def residuals (X : List (List ℚ)) (w y : List ℚ) : List ℚ :=
  List.zipWith (fun row yi => dot row w - yi) X y

/-- Line 23 of `loss.py`: `losses = np.square(residuals)`. -/
def losses (X : List (List ℚ)) (w y : List ℚ) : List ℚ :=
  (residuals X w y).map (fun r => r * r)

/-- Line 24 of `loss.py`: `kept_indices = np.argsort(losses)[:kept_size]`. -/
def kept_indices (cp : ℚ) (X : List (List ℚ)) (w y : List ℚ) : List ℕ :=
  pySlice (argsort (losses X w y)) (kept_size cp X.length)

/-- Python errors the embedded code can raise. -/
inductive PyErr where
  | zeroDivisionError
  deriving DecidableEq

/-- Embedding of `SquaredLoss.__call__` (lines 20-25 of `loss.py`).

Returns the pair (loss, gradient).  The division `sum(...) / kept_size` has
the Python integer `kept_size` as divisor, so `kept_size = 0` raises
`ZeroDivisionError`; every other path returns normally (the source performs
no validation of `contamination_proportion` or of the input shape).  The
gradient is `2 / kept_size * X[kept_indices].transpose().dot(residuals[kept_indices])`,
whose `j`-th component is `2 / kept_size * Σ_{i ∈ kept_indices} X[i][j] * residuals[i]`. -/
def call (cp : ℚ) (X : List (List ℚ)) (w y : List ℚ) : Except PyErr (ℚ × List ℚ) :=
  if kept_size cp X.length = 0 then .error .zeroDivisionError
  else
    .ok (((kept_indices cp X w y).map (fun i => (losses X w y).getD i 0)).sum /
           (kept_size cp X.length : ℚ),
         (List.range (X.headD []).length).map (fun j =>
           2 / (kept_size cp X.length : ℚ) *
             ((kept_indices cp X w y).map
               (fun i => (X.getD i []).getD j 0 * (residuals X w y).getD i 0)).sum))

end SquaredLoss

namespace NullPreprocessor

/-- Embedding of `NullPreprocessor.__call__` (lines 26-28 of
`preprocessor.py`): `return x, y`. -/
def call (x y : List ℚ) : List ℚ × List ℚ := (x, y)

end NullPreprocessor

namespace KernelPreprocessor

/-- Embedding of `x.min()` on a numpy array; only ever used on non-empty
input (it sits inside the per-sample loop of `__call__`), where it is the
least element.  The value on `[]` is an arbitrary default. -/
def npMin : List ℚ → ℚ
  | [] => 0
  | a :: rest => rest.foldl min a

/-- Python `range(a, b + 1)` over integers: the list `a, a+1, ..., b`
(empty when `b < a`). -/
def intRange (a b : ℤ) : List ℤ :=
  (List.range (b + 1 - a).toNat).map (fun (i : ℕ) => a + (i : ℤ))

/-- Lines 51-52 (and 53-54) of `preprocessor.py`: the inclusive range of
window indices along one axis that receive the sample coordinate `xi`,
given the axis minimum `m`, the stride `s` and the kernel size `k`:
`range(ceil((xi - m) / s), int((xi - (m - k)) / s) + 1)`. -/
def ixRange (xi m s k : ℚ) : List ℤ :=
  intRange ⌈(xi - m) / s⌉ (pyInt ((xi - (m - k)) / s))

/-- Appending a sample to the member list of window `key`, creating the
entry at the end when absent: the embedding of
`try: kernels[key].append(s) except KeyError: kernels[key] = [s]` on a
Python dict, whose iteration order is insertion order. -/
def addToKernels (ks : List ((ℤ × ℤ) × List (ℚ × ℚ))) (key : ℤ × ℤ) (s : ℚ × ℚ) :
    List ((ℤ × ℤ) × List (ℚ × ℚ)) :=
  match ks with
  | [] => [(key, [s])]
  | (k, v) :: rest =>
      if k = key then (k, v ++ [s]) :: rest else (k, v) :: addToKernels rest key s

/-- Lines 50-61 of `preprocessor.py`: the `kernels` dict after the
per-sample loop, as an insertion-ordered association list.  Each sample
`(xi, yi)` is appended to every window `(ix, iy)` with `ix` in its x-axis
index range and `iy` in its y-axis index range. -/
def kernels (kw kh sx sy : ℚ) (x y : List ℚ) : List ((ℤ × ℤ) × List (ℚ × ℚ)) :=
  (x.zip y).foldl (fun ks s =>
    (ixRange s.1 (npMin x) sx kw).foldl (fun ks ix =>
      (ixRange s.2 (npMin y) sy kh).foldl (fun ks iy =>
        addToKernels ks (ix, iy) s) ks) ks) []

/-- Line 65 of `preprocessor.py`:
`self.threshold_size = ceil(x.shape[0] * self.threshold)` — computed once
per call from the total sample count. -/
def threshold_size (n : ℕ) (threshold : ℚ) : ℤ := ⌈(n : ℚ) * threshold⌉

end KernelPreprocessor

namespace MeanKernelPreprocessor

/-- Embedding of `MeanKernelPreprocessor.combine` (lines 77-86 of
`preprocessor.py`): `None` when the member count is below
`threshold_size`, otherwise the coordinate-wise arithmetic mean of the
members. -/
def combine (tsize : ℤ) (samples : List (ℚ × ℚ)) : Option (ℚ × ℚ) :=
  if (samples.length : ℤ) < tsize then none
  else some ((samples.map Prod.fst).sum / (samples.length : ℚ),
             (samples.map Prod.snd).sum / (samples.length : ℚ))

/-- Embedding of `KernelPreprocessor.__call__` (lines 50-74 of
`preprocessor.py`) with the mean combine strategy: build the window dict,
run `combine` on every window in insertion order, and keep the returned
pairs (the `except TypeError: continue` branch skips exactly the windows
where `combine` returned `None`). -/
def call (kw kh sx sy threshold : ℚ) (x y : List ℚ) : List ℚ × List ℚ :=
  let out := (KernelPreprocessor.kernels kw kh sx sy x y).filterMap
    (fun kv => combine (KernelPreprocessor.threshold_size x.length threshold) kv.2)
  (out.map Prod.fst, out.map Prod.snd)

end MeanKernelPreprocessor

namespace ClusteringPreprocessor

/-- Line 100 of `preprocessor.py`: `index = np.where(clustering.labels_ != -1)`,
the list of positions whose label differs from the noise sentinel `-1`. -/
def whereNotNoise (labels : List ℤ) : List ℕ :=
  (List.range labels.length).filter (fun i => labels.getD i 0 ≠ -1)

/-- Lines 101-102 of `preprocessor.py`: `np.delete(v, index)` — the entries
of `v` whose position is not listed in `index`, in their original order. -/
def npDelete (v : List ℚ) (index : List ℕ) : List ℚ :=
  ((List.range v.length).filter (fun i => i ∉ index)).map (fun i => v.getD i 0)

/-- Embedding of `ClusteringPreprocessor.__call__` (lines 95-102 of
`preprocessor.py`).  The DBSCAN labelling is the injected external
clustering capability (scikit-learn); `labels` is its output vector for the
points `zip x y` at the configured `eps` and `min_samples`.  When `mode` is
not `"DBSCAN"` the Python function body ends without a `return` statement
and the call yields `None`, embedded as `none`. -/
def call (mode : String) (eps : ℚ) (min_samples : ℕ) (labels : List ℤ)
    (x y : List ℚ) : Option (List ℚ × List ℚ) :=
  if mode = "DBSCAN" then
    some (npDelete x (whereNotNoise labels), npDelete y (whereNotNoise labels))
  else none

end ClusteringPreprocessor

section Helpers

/-- Reading a list back off by index yields the list. -/
theorem map_getD_range {α : Type} (dflt : α) (l : List α) :
    (List.range l.length).map (fun i => l.getD i dflt) = l := by
  induction l with
  | nil => rfl
  | cons a l ih =>
      rw [List.length_cons, List.range_succ_eq_map, List.map_cons, List.map_map]
      simp only [List.getD_cons_zero, Function.comp_def, List.getD_cons_succ]
      rw [ih]

namespace SquaredLoss

theorem pairsOf_map_fst (l : List ℚ) : (pairsOf l).map Prod.fst = l := by
  rw [pairsOf, List.map_map]
  exact map_getD_range 0 l

theorem pairsOf_map_snd (l : List ℚ) : (pairsOf l).map Prod.snd = List.range l.length := by
  rw [pairsOf, List.map_map]
  simp [Function.comp_def]

theorem fst_of_mem_pairsOf {l : List ℚ} {p : ℚ × ℕ} (hp : p ∈ pairsOf l) :
    p.1 = l.getD p.2 0 := by
  simp only [pairsOf, List.mem_map, List.mem_range] at hp
  obtain ⟨i, _, rfl⟩ := hp
  rfl

theorem argsort_perm (l : List ℚ) : (argsort l).Perm (List.range l.length) := by
  have h := (List.perm_insertionSort valLe (pairsOf l)).map Prod.snd
  rwa [pairsOf_map_snd] at h

theorem length_argsort (l : List ℚ) : (argsort l).length = l.length :=
  (argsort_perm l).length_eq.trans (List.length_range _)

theorem mem_argsort_lt {l : List ℚ} {i : ℕ} (hi : i ∈ argsort l) : i < l.length :=
  List.mem_range.mp ((argsort_perm l).mem_iff.mp hi)

theorem nodup_argsort (l : List ℚ) : (argsort l).Nodup :=
  ((argsort_perm l).nodup_iff).mpr (List.nodup_range _)

/-- Reading the values of `l` along `argsort l` yields the ascending sort of
`l`: the partial-sort step of the trimmed loss. -/
theorem argsort_map_getD (l : List ℚ) :
    (argsort l).map (fun i => l.getD i 0) = l.insertionSort (· ≤ ·) := by
  have hmem : ∀ p ∈ (pairsOf l).insertionSort valLe, l.getD p.2 0 = p.1 := fun p hp =>
    (fst_of_mem_pairsOf ((List.perm_insertionSort valLe (pairsOf l)).mem_iff.mp hp)).symm
  have h1 : (argsort l).map (fun i => l.getD i 0)
      = ((pairsOf l).insertionSort valLe).map Prod.fst := by
    rw [argsort, List.map_map]
    exact List.map_congr_left (fun p hp => by
      simp only [Function.comp_apply]
      exact hmem p hp)
  rw [h1]
  have hp1 : ((((pairsOf l).insertionSort valLe).map Prod.fst)).Perm l := by
    have h := (List.perm_insertionSort valLe (pairsOf l)).map Prod.fst
    rwa [pairsOf_map_fst] at h
  have hs1 : List.Sorted (· ≤ ·) (((pairsOf l).insertionSort valLe).map Prod.fst) :=
    List.Pairwise.map Prod.fst (fun _ _ h => h) (List.sorted_insertionSort valLe (pairsOf l))
  exact List.eq_of_perm_of_sorted (hp1.trans (List.perm_insertionSort _ l).symm) hs1
    (List.sorted_insertionSort _ l)

theorem length_losses {X : List (List ℚ)} {w y : List ℚ} (hy : y.length = X.length) :
    (losses X w y).length = X.length := by
  simp [losses, residuals, hy]

theorem kept_size_pos {cp : ℚ} {n : ℕ} (hn : 1 ≤ n) (hcp : cp < 1) :
    0 < kept_size cp n := by
  apply Int.ceil_pos.mpr
  have hn0 : (0:ℚ) < (n:ℚ) := by exact_mod_cast hn
  have : (0:ℚ) < 1 - cp := by linarith
  exact mul_pos hn0 this

theorem kept_size_le {cp : ℚ} (n : ℕ) (hcp : 0 ≤ cp) : kept_size cp n ≤ (n : ℤ) := by
  rw [kept_size, Int.ceil_le]
  have hn0 : (0:ℚ) ≤ (n:ℚ) := Nat.cast_nonneg n
  push_cast
  nlinarith

end SquaredLoss

end Helpers

namespace SquaredLoss

/-- C1: for every design matrix `X` of shape `n × d` with `n ≥ 1`, weight
vector `w` of length `d`, target vector `y` of length `n`, and
`contamination_proportion` in `[0, 1)`, `SquaredLoss.__call__` returns
normally with `kept_size = ⌈n ⬝ (1 - contamination_proportion)⌉ ≥ 1`; the
loss is `(1 / kept_size)` times the sum of the values read along the kept
index set, the kept index set is `kept_size` distinct row indices whose
squared residuals are exactly the `kept_size` smallest (the first
`kept_size` entries of the ascending sort of the squared residuals), and
the gradient has length `d` with `j`-th component
`(2 / kept_size) ⬝ Σ_{i ∈ kept} X[i][j] ⬝ r[i]` over those same kept
indices. -/
theorem C1_trimmed_loss_spec (cp : ℚ) (X : List (List ℚ)) (w y : List ℚ) (d : ℕ)
    (hn : 1 ≤ X.length) (hw : w.length = d) (hy : y.length = X.length)
    (hd : ∀ row ∈ X, row.length = d) (hcp0 : 0 ≤ cp) (hcp1 : cp < 1) :
    ∃ (kept : List ℕ) (grad : List ℚ),
      call cp X w y =
        .ok ((kept.map (fun i => (losses X w y).getD i 0)).sum /
               (kept_size cp X.length : ℚ), grad) ∧
      kept_size cp X.length = ⌈(X.length : ℚ) * (1 - cp)⌉ ∧
      1 ≤ kept_size cp X.length ∧
      kept.length = (kept_size cp X.length).toNat ∧
      kept.Nodup ∧ (∀ i ∈ kept, i < X.length) ∧
      kept.map (fun i => (losses X w y).getD i 0) =
        ((losses X w y).insertionSort (· ≤ ·)).take (kept_size cp X.length).toNat ∧
      grad.length = d ∧
      ∀ j < d, grad.getD j 0 =
        2 / (kept_size cp X.length : ℚ) *
          (kept.map (fun i =>
            (X.getD i []).getD j 0 * (residuals X w y).getD i 0)).sum := by
  have hk0 : 0 < kept_size cp X.length := kept_size_pos hn hcp1
  have hkn : kept_size cp X.length ≤ (X.length : ℤ) := kept_size_le X.length hcp0
  have hll : (losses X w y).length = X.length := length_losses hy
  have hla : (argsort (losses X w y)).length = X.length := by
    rw [length_argsort, hll]
  have hki : kept_indices cp X w y =
      (argsort (losses X w y)).take (kept_size cp X.length).toNat := by
    rw [kept_indices, pySlice, if_pos (le_of_lt hk0)]
  have htoNat : (kept_size cp X.length).toNat ≤ X.length := by omega
  have hklen : (kept_indices cp X w y).length = (kept_size cp X.length).toNat := by
    rw [hki, List.length_take, hla]
    exact min_eq_left htoNat
  obtain ⟨row, rest, hX⟩ : ∃ row rest, X = row :: rest := by
    cases X with
    | nil => simp at hn
    | cons row rest => exact ⟨row, rest, rfl⟩
  have hhead : (X.headD []).length = d := by
    rw [hX]
    exact hd row (by rw [hX]; exact List.mem_cons_self _ _)
  refine ⟨kept_indices cp X w y,
    (List.range (X.headD []).length).map (fun j =>
      2 / (kept_size cp X.length : ℚ) *
        ((kept_indices cp X w y).map
          (fun i => (X.getD i []).getD j 0 * (residuals X w y).getD i 0)).sum),
    ?_, rfl, by omega, hklen, ?_, ?_, ?_, ?_, ?_⟩
  · rw [call, if_neg (by omega)]
  · rw [hki]
    exact (List.take_sublist _ _).nodup (nodup_argsort _)
  · intro i hi
    rw [hki] at hi
    have := mem_argsort_lt (List.mem_of_mem_take hi)
    omega
  · rw [hki, List.map_take, argsort_map_getD]
  · rw [List.length_map, List.length_range, hhead]
  · intro j hj
    rw [List.getD_eq_getElem _ _ (by rw [List.length_map, List.length_range, hhead]; exact hj),
      List.getElem_map, List.getElem_range]

end SquaredLoss

namespace SquaredLoss

/-- Witness for C1 at the outlier example of the specification:
`X = [[1],[2],[3],[4],[5]]`, `w = [1]`, `y = [1,2,3,100,5]`,
`contamination_proportion = 1/5`. -/
theorem C1_trimmed_loss_spec_witness :
    ((0:ℚ) ≤ 1/5 ∧ (1:ℚ)/5 < 1 ∧ 1 ≤ [[(1:ℚ)],[2],[3],[4],[5]].length) ∧
    (∃ (kept : List ℕ) (grad : List ℚ),
      call (1/5) [[(1:ℚ)],[2],[3],[4],[5]] [1] [1,2,3,100,5] =
        .ok ((kept.map (fun i =>
                (losses [[(1:ℚ)],[2],[3],[4],[5]] [1] [1,2,3,100,5]).getD i 0)).sum /
               (kept_size (1/5) [[(1:ℚ)],[2],[3],[4],[5]].length : ℚ), grad) ∧
      kept_size (1/5) [[(1:ℚ)],[2],[3],[4],[5]].length =
        ⌈([[(1:ℚ)],[2],[3],[4],[5]].length : ℚ) * (1 - 1/5)⌉ ∧
      1 ≤ kept_size (1/5) [[(1:ℚ)],[2],[3],[4],[5]].length ∧
      kept.length = (kept_size (1/5) [[(1:ℚ)],[2],[3],[4],[5]].length).toNat ∧
      kept.Nodup ∧ (∀ i ∈ kept, i < [[(1:ℚ)],[2],[3],[4],[5]].length) ∧
      kept.map (fun i =>
          (losses [[(1:ℚ)],[2],[3],[4],[5]] [1] [1,2,3,100,5]).getD i 0) =
        ((losses [[(1:ℚ)],[2],[3],[4],[5]] [1] [1,2,3,100,5]).insertionSort (· ≤ ·)).take
          (kept_size (1/5) [[(1:ℚ)],[2],[3],[4],[5]].length).toNat ∧
      grad.length = 1 ∧
      ∀ j < 1, grad.getD j 0 =
        2 / (kept_size (1/5) [[(1:ℚ)],[2],[3],[4],[5]].length : ℚ) *
          (kept.map (fun i =>
            ([[(1:ℚ)],[2],[3],[4],[5]].getD i []).getD j 0 *
              (residuals [[(1:ℚ)],[2],[3],[4],[5]] [1] [1,2,3,100,5]).getD i 0)).sum) :=
  ⟨⟨by norm_num, by norm_num, by decide⟩,
   C1_trimmed_loss_spec (1/5) [[(1:ℚ)],[2],[3],[4],[5]] [1] [1,2,3,100,5] 1
     (by decide) (by decide) (by decide) (by decide) (by norm_num) (by norm_num)⟩

end SquaredLoss

namespace SquaredLoss

/-- C3: with `contamination_proportion = 0`, `kept_size = n` and
`SquaredLoss.__call__` returns exactly the ordinary mean-squared-error loss
`(1/n) Σ r_i²` together with the standard gradient whose `j`-th component
is `(2/n) Σ_{i < n} X[i][j] ⬝ r[i]`, i.e. unconditional least squares. -/
theorem C3_ols_equivalence (X : List (List ℚ)) (w y : List ℚ) (d : ℕ)
    (hn : 1 ≤ X.length) (hy : y.length = X.length) (hd : ∀ row ∈ X, row.length = d) :
    kept_size 0 X.length = (X.length : ℤ) ∧
    call 0 X w y =
      .ok ((losses X w y).sum / (X.length : ℚ),
           (List.range d).map (fun j =>
             2 / (X.length : ℚ) *
               ((List.range X.length).map
                 (fun i => (X.getD i []).getD j 0 * (residuals X w y).getD i 0)).sum)) := by
  have hk : kept_size 0 X.length = (X.length : ℤ) := by
    rw [kept_size]; norm_num
  have hll : (losses X w y).length = X.length := length_losses hy
  have hki : kept_indices 0 X w y = argsort (losses X w y) := by
    rw [kept_indices, pySlice, if_pos (by rw [hk]; exact Int.natCast_nonneg _), hk,
      Int.toNat_natCast]
    exact List.take_of_length_le (by rw [length_argsort, hll])
  have hpermsum : ∀ f : ℕ → ℚ,
      ((argsort (losses X w y)).map f).sum = ((List.range X.length).map f).sum := by
    intro f
    have h := (argsort_perm (losses X w y)).map f
    rw [hll] at h
    exact h.sum_eq
  have hkQ : (kept_size 0 X.length : ℚ) = (X.length : ℚ) := by
    rw [hk]
    push_cast
    rfl
  obtain ⟨row, rest, hX⟩ : ∃ row rest, X = row :: rest := by
    cases X with
    | nil => simp at hn
    | cons row rest => exact ⟨row, rest, rfl⟩
  have hhead : (X.headD []).length = d := by
    rw [hX]
    exact hd row (by rw [hX]; exact List.mem_cons_self _ _)
  refine ⟨hk, ?_⟩
  rw [call, if_neg (by rw [hk]; omega), hki, hkQ, hhead]
  have hsum : ((argsort (losses X w y)).map (fun i => (losses X w y).getD i 0)).sum
      = (losses X w y).sum := by
    rw [hpermsum]
    conv_lhs => rw [← hll]
    rw [map_getD_range]
  rw [hsum]
  have hgrad : ∀ j, ((argsort (losses X w y)).map
        (fun i => (X.getD i []).getD j 0 * (residuals X w y).getD i 0)).sum
      = ((List.range X.length).map
          (fun i => (X.getD i []).getD j 0 * (residuals X w y).getD i 0)).sum :=
    fun j => hpermsum _
  exact congrArg Except.ok (Prod.ext rfl (List.map_congr_left
    (fun j _ => by rw [hgrad j])))

/-- Witness for C3 at `X = [[1],[2]]`, `w = [1]`, `y = [0,0]`. -/
theorem C3_ols_equivalence_witness :
    (1 ≤ [[(1:ℚ)],[2]].length ∧ [(0:ℚ),0].length = [[(1:ℚ)],[2]].length) ∧
    kept_size 0 [[(1:ℚ)],[2]].length = ([[(1:ℚ)],[2]].length : ℤ) ∧
    call 0 [[(1:ℚ)],[2]] [1] [0,0] =
      .ok ((losses [[(1:ℚ)],[2]] [1] [0,0]).sum / ([[(1:ℚ)],[2]].length : ℚ),
           (List.range 1).map (fun j =>
             2 / ([[(1:ℚ)],[2]].length : ℚ) *
               ((List.range [[(1:ℚ)],[2]].length).map
                 (fun i => ([[(1:ℚ)],[2]].getD i []).getD j 0 *
                   (residuals [[(1:ℚ)],[2]] [1] [0,0]).getD i 0)).sum)) :=
  ⟨⟨by decide, by decide⟩,
   C3_ols_equivalence [[(1:ℚ)],[2]] [1] [0,0] 1 (by decide) (by decide) (by decide)⟩

end SquaredLoss

namespace SquaredLoss

/-- C5: the code performs no validation.  Configured with
`contamination_proportion = 2` (an invalid value the claim says is
rejected), `SquaredLoss.__call__` on `X = [[1]]`, `w = [1]`, `y = [0]`
silently returns `(0, [0])` — `kept_size` is the negative number `-1`, the
Python slice `[:-1]` drops the only sample, and no error of any kind is
raised; and called on an empty sample set (`n = 0`, which the claim says is
rejected with a typed failure) it dies with a bare `ZeroDivisionError`
rather than an explicit input-validation error. -/
theorem C5_no_validation_eval :
    call 2 [[(1:ℚ)]] [1] [0] = .ok (0, [0]) ∧
    call 0 ([] : List (List ℚ)) [] [] = .error .zeroDivisionError := by
  constructor
  · have hk : kept_size 2 [[(1:ℚ)]].length = -1 := by
      rw [kept_size]
      norm_num
      exact_mod_cast Int.ceil_intCast (α := ℚ) (-1)
    have hlen : (argsort (losses [[(1:ℚ)]] [1] [0])).length = 1 := by
      rw [length_argsort]
      simp [losses, residuals]
    have hki : kept_indices 2 [[(1:ℚ)]] [1] [0] = [] := by
      rw [kept_indices, hk, pySlice, if_neg (by decide), hlen]
      norm_num
    rw [call, if_neg (by rw [hk]; decide), hki, hk]
    norm_num
  · have hk : kept_size 0 ([] : List (List ℚ)).length = 0 := by
      rw [kept_size]
      norm_num
    rw [call, if_pos hk]

end SquaredLoss

/-- C10: `NullPreprocessor.__call__` is the identity on sample sets: it
returns exactly the pair `(x, y)` unchanged. -/
theorem C10_null_preprocessor_identity (x y : List ℚ) :
    NullPreprocessor.call x y = (x, y) := rfl

namespace ClusteringPreprocessor

/-- Selecting positions with label `-1` from an index range coincides with
filtering the zipped (value, label) pairs. -/
theorem map_filter_range_eq_zip (v : List ℚ) (l : List ℤ) (h : l.length = v.length) :
    ((List.range v.length).filter (fun i => l.getD i 0 = -1)).map (fun i => v.getD i 0)
    = ((v.zip l).filter (fun p => p.2 = -1)).map Prod.fst := by
  induction v generalizing l with
  | nil => simp
  | cons a v ih =>
      cases l with
      | nil => simp at h
      | cons b l =>
          have hlen : l.length = v.length := by
            rw [List.length_cons, List.length_cons] at h
            omega
          rw [List.length_cons, List.range_succ_eq_map, List.filter_cons, List.zip_cons_cons,
            List.filter_cons]
          simp only [List.getD_cons_zero, List.filter_map, List.map_map, Function.comp_def,
            List.getD_cons_succ]
          have ih2 := ih l hlen
          simp only [List.getD_eq_getElem?_getD] at ih2
          by_cases hb : b = -1 <;>
            simp [hb, Function.comp_def, ih2]

/-- The `np.where` / `np.delete` pair of `ClusteringPreprocessor.__call__`
keeps exactly the entries whose label is the noise sentinel `-1`, in their
original relative order. -/
theorem npDelete_whereNotNoise (v : List ℚ) (l : List ℤ) (h : l.length = v.length) :
    npDelete v (whereNotNoise l) = ((v.zip l).filter (fun p => p.2 = -1)).map Prod.fst := by
  have hcond : ((List.range v.length).filter (fun i => decide (i ∉ whereNotNoise l)))
      = ((List.range v.length).filter (fun i => decide (l.getD i 0 = -1))) := by
    apply List.filter_congr
    intro i hi
    have hilt : i < l.length := by
      rw [h]
      exact List.mem_range.mp hi
    simp only [decide_eq_decide, whereNotNoise, List.mem_filter, List.mem_range]
    constructor
    · intro hno
      by_contra hne
      exact hno ⟨hilt, by simpa using hne⟩
    · intro heq hmem
      rw [heq] at hmem
      simp at hmem
  rw [npDelete, hcond]
  exact map_filter_range_eq_zip v l h

/-- C2: in mode `"DBSCAN"`, for every labelling produced by the clustering
capability, the filter outputs exactly the subset of input samples whose
label equals the noise sentinel `-1` (clustered samples are discarded), and
the kept samples appear in their original relative order. -/
theorem C2_density_filter_keeps_noise (eps : ℚ) (min_samples : ℕ) (labels : List ℤ)
    (x y : List ℚ) (hx : labels.length = x.length) (hyl : labels.length = y.length) :
    call "DBSCAN" eps min_samples labels x y =
      some (((x.zip labels).filter (fun p => p.2 = -1)).map Prod.fst,
            ((y.zip labels).filter (fun p => p.2 = -1)).map Prod.fst) := by
  rw [call, if_pos rfl, npDelete_whereNotNoise x labels hx,
    npDelete_whereNotNoise y labels hyl]

/-- Witness for C2: one cluster label `0` on positions 0 and 2, noise on
positions 1 and 3; exactly the two noise samples survive, in order. -/
theorem C2_density_filter_keeps_noise_witness :
    (([(0:ℤ), -1, 0, -1].length = [(1:ℚ), 2, 3, 4].length) ∧
      ([(0:ℤ), -1, 0, -1].length = [(5:ℚ), 6, 7, 8].length)) ∧
    call "DBSCAN" 1 2 [(0:ℤ), -1, 0, -1] [(1:ℚ), 2, 3, 4] [(5:ℚ), 6, 7, 8] =
      some ((([(1:ℚ), 2, 3, 4].zip [(0:ℤ), -1, 0, -1]).filter
               (fun p => p.2 = -1)).map Prod.fst,
            (([(5:ℚ), 6, 7, 8].zip [(0:ℤ), -1, 0, -1]).filter
               (fun p => p.2 = -1)).map Prod.fst) :=
  ⟨⟨by decide, by decide⟩,
   C2_density_filter_keeps_noise 1 2 [(0:ℤ), -1, 0, -1] [(1:ℚ), 2, 3, 4] [(5:ℚ), 6, 7, 8]
     (by decide) (by decide)⟩

/-- C8: for every mode other than `"DBSCAN"`, the body of
`ClusteringPreprocessor.__call__` falls through without a `return`
statement, so the call silently yields `None` — no `UnsupportedModeError`
(which the source never defines) is raised. -/
theorem C8_unsupported_mode_returns_none (mode : String) (eps : ℚ) (min_samples : ℕ)
    (labels : List ℤ) (x y : List ℚ) (h : mode ≠ "DBSCAN") :
    call mode eps min_samples labels x y = none := by
  rw [call, if_neg h]

/-- Witness for C8 at the unsupported mode `"KMEANS"`. -/
theorem C8_unsupported_mode_returns_none_witness :
    ("KMEANS" ≠ "DBSCAN") ∧ call "KMEANS" 1 2 [] [] [] = none :=
  ⟨by decide, C8_unsupported_mode_returns_none "KMEANS" 1 2 [] [] [] (by decide)⟩

end ClusteringPreprocessor

namespace MeanKernelPreprocessor

/-- Running `combine` over the window list keeps exactly the windows whose
member count reaches `tsize`, each contributing its coordinate-wise mean. -/
theorem filterMap_combine (tsize : ℤ) (ks : List ((ℤ × ℤ) × List (ℚ × ℚ))) :
    ks.filterMap (fun kv => combine tsize kv.2)
    = (ks.filter (fun kv => tsize ≤ (kv.2.length : ℤ))).map
        (fun kv => ((kv.2.map Prod.fst).sum / (kv.2.length : ℚ),
                    (kv.2.map Prod.snd).sum / (kv.2.length : ℚ))) := by
  induction ks with
  | nil => rfl
  | cons kv ks ih =>
      rw [List.filterMap_cons, List.filter_cons, combine]
      by_cases hc : (kv.2.length : ℤ) < tsize
      · rw [if_pos hc]
        simp only [decide_eq_true_eq]
        rw [if_neg (not_le.mpr hc)]
        exact ih
      · rw [if_neg hc]
        simp only [decide_eq_true_eq]
        rw [if_pos (not_lt.mp hc), List.map_cons]
        rw [ih]

/-- C7: `threshold_size = ⌈n ⬝ threshold⌉` is computed from the total
sample count `n`, and the output of the Grid Aggregator consists of exactly
one combined (mean) sample for each window whose member count is at least
`threshold_size`, while windows below it contribute nothing. -/
theorem C7_threshold_gating (kw kh sx sy threshold : ℚ) (x y : List ℚ) :
    KernelPreprocessor.threshold_size x.length threshold
      = ⌈(x.length : ℚ) * threshold⌉ ∧
    call kw kh sx sy threshold x y =
      (((KernelPreprocessor.kernels kw kh sx sy x y).filter
          (fun kv => KernelPreprocessor.threshold_size x.length threshold
            ≤ (kv.2.length : ℤ))).map
        (fun kv => (kv.2.map Prod.fst).sum / (kv.2.length : ℚ)),
       ((KernelPreprocessor.kernels kw kh sx sy x y).filter
          (fun kv => KernelPreprocessor.threshold_size x.length threshold
            ≤ (kv.2.length : ℤ))).map
        (fun kv => (kv.2.map Prod.snd).sum / (kv.2.length : ℚ))) := by
  refine ⟨rfl, ?_⟩
  simp only [call]
  rw [filterMap_combine, List.map_map, List.map_map]
  rfl

end MeanKernelPreprocessor

/-- C9: on an empty input sample set, the Grid Aggregator builds no windows
at all and returns empty output arrays, without any error, for every
configuration with positive kernel sizes and strides. -/
theorem C9_empty_input (kw kh sx sy threshold : ℚ)
    (hkw : 0 < kw) (hkh : 0 < kh) (hsx : 0 < sx) (hsy : 0 < sy) :
    KernelPreprocessor.kernels kw kh sx sy [] [] = [] ∧
    MeanKernelPreprocessor.call kw kh sx sy threshold [] [] = ([], []) :=
  ⟨rfl, rfl⟩

/-- Witness for C9 at kernel size and strides 1. -/
theorem C9_empty_input_witness :
    (0 : ℚ) < 1 ∧
    KernelPreprocessor.kernels 1 1 1 1 [] [] = [] ∧
    MeanKernelPreprocessor.call 1 1 1 1 0 [] [] = ([], []) :=
  ⟨by norm_num,
   C9_empty_input 1 1 1 1 0 (by norm_num) (by norm_num) (by norm_num) (by norm_num)⟩

namespace KernelPreprocessor

/-- Folding `min` over a list stays below the accumulator and below every
element. -/
theorem foldl_min_le (rest : List ℚ) :
    ∀ a : ℚ, rest.foldl min a ≤ a ∧ ∀ xi ∈ rest, rest.foldl min a ≤ xi := by
  induction rest with
  | nil =>
      intro a
      exact ⟨le_refl a, by simp⟩
  | cons b rest ih =>
      intro a
      rw [List.foldl_cons]
      obtain ⟨h1, h2⟩ := ih (min a b)
      refine ⟨le_trans h1 (min_le_left a b), ?_⟩
      intro xi hxi
      rcases List.mem_cons.mp hxi with h | h
      · subst h
        exact le_trans h1 (min_le_right _ _)
      · exact h2 xi h

/-- `x.min()` bounds every element of a non-empty list from below. -/
theorem npMin_le {l : List ℚ} {xi : ℚ} (h : xi ∈ l) : npMin l ≤ xi := by
  cases l with
  | nil => simp at h
  | cons a rest =>
      simp only [npMin]
      rcases List.mem_cons.mp h with h | h
      · subst h
        exact (foldl_min_le rest _).1
      · exact (foldl_min_le rest a).2 xi h

/-- Axis window-count under exact tiling (`stride == kernel_size`): a
coordinate whose offset from the axis minimum is an integral multiple of
the stride falls in exactly two adjacent windows, every other coordinate in
exactly one. -/
theorem length_ixRange_tiling {xi m s : ℚ} (hs : 0 < s) (hxm : m ≤ xi) :
    (ixRange xi m s s).length =
      if Int.fract ((xi - m) / s) = 0 then 2 else 1 := by
  have ht0 : 0 ≤ (xi - m) / s := div_nonneg (by linarith) (le_of_lt hs)
  have hlen : ∀ a b : ℤ, (intRange a b).length = (b + 1 - a).toNat := by
    intro a b
    rw [intRange, List.length_map, List.length_range]
  have hhigh : pyInt ((xi - (m - s)) / s) = ⌊(xi - m) / s⌋ + 1 := by
    have harg : (xi - (m - s)) / s = (xi - m) / s + 1 := by
      field_simp
      ring
    rw [harg, pyInt, if_pos (by linarith), Int.floor_add_one]
  rw [ixRange, hhigh, hlen]
  have hfr : Int.fract ((xi - m) / s) = (xi - m) / s - ⌊(xi - m) / s⌋ :=
    (Int.self_sub_floor _).symm
  by_cases hf : Int.fract ((xi - m) / s) = 0
  · rw [if_pos hf]
    have hteq : (xi - m) / s = ((⌊(xi - m) / s⌋ : ℤ) : ℚ) := by
      rw [hfr] at hf
      linarith
    have hceil : ⌈(xi - m) / s⌉ = ⌊(xi - m) / s⌋ := by
      rw [hteq, Int.ceil_intCast, Int.floor_intCast]
    rw [hceil]
    omega
  · rw [if_neg hf]
    have hfpos : 0 < Int.fract ((xi - m) / s) :=
      lt_of_le_of_ne (Int.fract_nonneg _) (Ne.symm hf)
    have hflo : ((⌊(xi - m) / s⌋ : ℤ) : ℚ) < (xi - m) / s := by
      rw [hfr] at hfpos
      linarith
    have hceil : ⌈(xi - m) / s⌉ = ⌊(xi - m) / s⌋ + 1 := by
      rw [Int.ceil_eq_iff]
      constructor
      · push_cast
        linarith
      · push_cast
        have := Int.lt_floor_add_one ((xi - m) / s)
        linarith
    rw [hceil]
    omega

end KernelPreprocessor

/-- C6 (amended): with `threshold = 0` and `kernel_size == strides`, a
sample is assigned to exactly one window index along an axis precisely when
its offset from the axis minimum is not an integral multiple of the stride;
when the offset is an exact multiple (as always happens for the sample at
the axis minimum) it is assigned to exactly two adjacent window indices on
that axis.  Every window then contributes one output sample equal to the
arithmetic mean of exactly the samples assigned to it. -/
theorem C6_tiling_boundary_amended (sx sy : ℚ) (hsx : 0 < sx) (hsy : 0 < sy)
    (x y : List ℚ) :
    (∀ xi ∈ x,
      (KernelPreprocessor.ixRange xi (KernelPreprocessor.npMin x) sx sx).length =
        if Int.fract ((xi - KernelPreprocessor.npMin x) / sx) = 0 then 2 else 1) ∧
    (∀ yi ∈ y,
      (KernelPreprocessor.ixRange yi (KernelPreprocessor.npMin y) sy sy).length =
        if Int.fract ((yi - KernelPreprocessor.npMin y) / sy) = 0 then 2 else 1) ∧
    MeanKernelPreprocessor.call sx sy sx sy 0 x y =
      ((KernelPreprocessor.kernels sx sy sx sy x y).map
         (fun kv => (kv.2.map Prod.fst).sum / (kv.2.length : ℚ)),
       (KernelPreprocessor.kernels sx sy sx sy x y).map
         (fun kv => (kv.2.map Prod.snd).sum / (kv.2.length : ℚ))) := by
  refine ⟨fun xi hxi =>
      KernelPreprocessor.length_ixRange_tiling hsx (KernelPreprocessor.npMin_le hxi),
    fun yi hyi =>
      KernelPreprocessor.length_ixRange_tiling hsy (KernelPreprocessor.npMin_le hyi), ?_⟩
  simp only [MeanKernelPreprocessor.call]
  rw [MeanKernelPreprocessor.filterMap_combine]
  have hts : KernelPreprocessor.threshold_size x.length 0 = 0 := by
    rw [KernelPreprocessor.threshold_size]
    norm_num
  rw [hts]
  have hall : (KernelPreprocessor.kernels sx sy sx sy x y).filter
      (fun kv => (0:ℤ) ≤ (kv.2.length : ℤ)) = KernelPreprocessor.kernels sx sy sx sy x y :=
    List.filter_eq_self.mpr (fun kv _ => by simpa using Int.natCast_nonneg kv.2.length)
  rw [hall, List.map_map, List.map_map]
  rfl

/-- Witness for the amended C6 at stride 1 with samples `[0, 1/2]` on both
axes. -/
theorem C6_tiling_boundary_amended_witness :
    ((0:ℚ) < 1) ∧
    ((∀ xi ∈ [(0:ℚ), 1/2],
      (KernelPreprocessor.ixRange xi (KernelPreprocessor.npMin [(0:ℚ), 1/2]) 1 1).length =
        if Int.fract ((xi - KernelPreprocessor.npMin [(0:ℚ), 1/2]) / 1) = 0 then 2 else 1) ∧
    (∀ yi ∈ [(0:ℚ), 1/2],
      (KernelPreprocessor.ixRange yi (KernelPreprocessor.npMin [(0:ℚ), 1/2]) 1 1).length =
        if Int.fract ((yi - KernelPreprocessor.npMin [(0:ℚ), 1/2]) / 1) = 0 then 2 else 1) ∧
    MeanKernelPreprocessor.call 1 1 1 1 0 [(0:ℚ), 1/2] [(0:ℚ), 1/2] =
      ((KernelPreprocessor.kernels 1 1 1 1 [(0:ℚ), 1/2] [(0:ℚ), 1/2]).map
         (fun kv => (kv.2.map Prod.fst).sum / (kv.2.length : ℚ)),
       (KernelPreprocessor.kernels 1 1 1 1 [(0:ℚ), 1/2] [(0:ℚ), 1/2]).map
         (fun kv => (kv.2.map Prod.snd).sum / (kv.2.length : ℚ)))) :=
  ⟨by norm_num,
   C6_tiling_boundary_amended 1 1 (by norm_num) (by norm_num) [(0:ℚ), 1/2] [(0:ℚ), 1/2]⟩

/-- C6 counterexample: with `threshold = 0`, `kernel_size == strides = (1,1)`
and the single input sample `(0, 0)`, the sample sits exactly on a window
boundary and is assigned to four windows (two per axis), not one, and the
aggregator emits four output samples for the one input. -/
theorem C6_partition_counterexample :
    ((KernelPreprocessor.kernels 1 1 1 1 [(0:ℚ)] [(0:ℚ)]).filter
        (fun kv => ((0:ℚ), (0:ℚ)) ∈ kv.2)).length = 4 ∧
    (MeanKernelPreprocessor.call 1 1 1 1 0 [(0:ℚ)] [(0:ℚ)]).1 = [0, 0, 0, 0] := by
  have hix : KernelPreprocessor.ixRange 0 0 1 1 = [0, 1] := by
    rw [KernelPreprocessor.ixRange]
    have h1 : ((0:ℚ) - 0) / 1 = 0 := by norm_num
    have h2 : ((0:ℚ) - (0 - 1)) / 1 = 1 := by norm_num
    rw [h1, h2, Int.ceil_zero, pyInt, if_pos (by norm_num), Int.floor_one]
    rfl
  have hker : KernelPreprocessor.kernels 1 1 1 1 [(0:ℚ)] [(0:ℚ)] =
      [((0, 0), [((0:ℚ), (0:ℚ))]), ((0, 1), [(0, 0)]),
       ((1, 0), [(0, 0)]), ((1, 1), [(0, 0)])] := by
    rw [KernelPreprocessor.kernels]
    simp only [List.zip_cons_cons, List.zip_nil_right, List.foldl_cons, List.foldl_nil,
      KernelPreprocessor.npMin, hix, KernelPreprocessor.addToKernels]
    norm_num [KernelPreprocessor.addToKernels]
  constructor
  · rw [hker]
    rfl
  · simp only [MeanKernelPreprocessor.call, hker]
    have hts : KernelPreprocessor.threshold_size [(0:ℚ)].length 0 = 0 := by
      rw [KernelPreprocessor.threshold_size]
      norm_num
    rw [hts]
    simp only [MeanKernelPreprocessor.combine]
    norm_num [List.filterMap_cons, List.sum_cons, List.sum_nil]
